import Mathlib

/-!
Verification of the secrets-vault utilities of the troyonix-financial-ai
repository: a shallow embedding of `src/utils/config_utils.py` and
`src/utils/secure_data_utils.py`, together with proofs of the stated
properties of key derivation, encrypted save and load, the HMAC integrity
check, and the log redactor.

Modelling conventions:
- Python dictionaries become insertion-ordered association lists; JSON
  values become the inductive `Json` (numbers restricted to integers).
- Machine bytes are `Nat` values reduced modulo 256 where produced.
- Library crypto primitives (PBKDF2HMAC, the Fernet cipher, HMAC-SHA256)
  are modelled by concrete executable stand-ins that keep the interface
  properties the code relies on: determinism, fixed output lengths, and
  authenticate-then-decrypt behaviour.  Confidentiality itself is not a
  subject of any claim and is not modelled.
- `json.dumps` / `json.loads` are modelled at token granularity: the
  serializer emits the token stream of the JSON text and the parser is a
  recursive-descent reader of that stream.
- Filesystem state is an association list from path to file content, and
  a save operation is embedded as the list of write and remove operations
  it performs, in program order, so that ordering and mid-failure
  properties can be stated over trace prefixes.
- Python exceptions become the `PyExc` inductive; a raised exception is
  an `Except.error`.  The `except Exception` wrapper blocks of the source
  are embedded as explicit re-wrapping of the inner error.
-/

namespace Troyonix

/-- Bytes are naturals (values kept below 256 where produced). -/
abbrev Bytes := List Nat

/-- Token stream of a JSON text, the granularity at which the model
serializes payloads (`json.dumps`) and parses them back (`json.loads`). -/
inductive Tok where
  | lbrace
  | rbrace
  | lbrack
  | rbrack
  | colon
  | comma
  | tstr (s : String)
  | tint (n : Int)
  | tbool (b : Bool)
  | tnull
deriving DecidableEq

/-- JSON-representable values: the payload type of the vault.  Python
dicts are insertion-ordered association lists. -/
inductive Json where
  | jstr (s : String)
  | jint (n : Int)
  | jbool (b : Bool)
  | jnull
  | jarr (elems : List Json)
  | jobj (entries : List (String × Json))

/-- Python exception values raised by the embedded code.  `configError`
is `ConfigError` from config_utils, `secureDataError` is
`SecureDataError` from secure_data_utils; the remaining constructors are
the library exceptions the code can encounter. -/
inductive PyExc where
  | configError (msg : String)
  | secureDataError (msg : String)
  | fileNotFoundError (msg : String)
  | invalidToken (msg : String)
  | jsonDecodeError (msg : String)
deriving DecidableEq

/-- The Python class name of an exception value: the "type" a caller can
distinguish failures by. -/
def excTypeName : PyExc → String
  | .configError _ => "ConfigError"
  | .secureDataError _ => "SecureDataError"
  | .fileNotFoundError _ => "FileNotFoundError"
  | .invalidToken _ => "InvalidToken"
  | .jsonDecodeError _ => "JSONDecodeError"

/-- `str(e)` for an exception value: its message. -/
def excMessage : PyExc → String
  | .configError m => m
  | .secureDataError m => m
  | .fileNotFoundError m => m
  | .invalidToken m => m
  | .jsonDecodeError m => m

/-- The Python class name of the error of a failed call, `none` on
success. -/
def errType {α : Type} : Except PyExc α → Option String
  | .error e => some (excTypeName e)
  | .ok _ => none

/-- Whether an embedded call succeeded (did not raise). -/
def exceptIsOk {α : Type} : Except PyExc α → Bool
  | .ok _ => true
  | .error _ => false

/-- UTF code points of a string: the model of `str.encode()`. -/
def strBytes (s : String) : Bytes :=
  s.toList.map Char.toNat

/-- Model of the PBKDF2HMAC(SHA256) library primitive: a deterministic
function of password bytes, salt, iteration count and requested length,
returning exactly `len` bytes.  The concrete mixing is a stand-in; only
determinism and the output length are relied on. -/
def pbkdf2Sha256 (pw salt : Bytes) (iters len : Nat) : Bytes :=
  (List.range len).map fun i =>
    (pw.foldl (fun a b => a * 31 + b) 7 +
     salt.foldl (fun a b => a * 37 + b) 11 + iters * 131 + i * 17) % 256

/-- The urlsafe base64 alphabet. -/
def b64Alphabet : List Char :=
  "ABCDEFGHIJKLMNOPQRSTUVWXYZabcdefghijklmnopqrstuvwxyz0123456789-_".toList

/-- One base64 output character. -/
def b64Char (n : Nat) : Char :=
  b64Alphabet.getD n 'A'

/-- Model of `base64.urlsafe_b64encode`: three input bytes become four
output characters, with `=` padding for a trailing group of one or two
bytes. -/
def urlsafeB64Encode : Bytes → List Char
  | [] => []
  | [a] => [b64Char (a / 4 % 64), b64Char (a % 4 * 16), '=', '=']
  | [a, b] => [b64Char (a / 4 % 64), b64Char (a % 4 * 16 + b / 16 % 16),
               b64Char (b % 16 * 4), '=']
  | a :: b :: c :: rest =>
      b64Char (a / 4 % 64) :: b64Char (a % 4 * 16 + b / 16 % 16) ::
      b64Char (b % 16 * 4 + c / 64 % 4) :: b64Char (c % 64) ::
      urlsafeB64Encode rest

/-- Length of a base64 encoding: four characters per started group of
three bytes. -/
theorem urlsafeB64Encode_length :
    ∀ bs : Bytes, (urlsafeB64Encode bs).length = 4 * ((bs.length + 2) / 3) := by
  intro bs
  induction bs using urlsafeB64Encode.induct with
  | case1 => simp [urlsafeB64Encode]
  | case2 a => simp [urlsafeB64Encode]
  | case3 a b => simp [urlsafeB64Encode]
  | case4 a b c rest ih =>
    simp only [urlsafeB64Encode, List.length_cons, ih]
    omega

/-- A Fernet key: the urlsafe-base64 text returned by key derivation. -/
abbrev FernetKey := List Char

/-- A Fernet token: the authenticated ciphertext artifact.  The body is
the protected serialized payload; the tag authenticates it under the
key.  Version byte, timestamp and IV of the real format play no role in
any claim and are omitted. -/
structure FernetToken where
  body : List Tok
  tag : Bytes
deriving DecidableEq

/-- Numeric fingerprint of one token, used by the keyed-digest models. -/
def tokHash : Tok → Nat
  | .lbrace => 1
  | .rbrace => 2
  | .lbrack => 3
  | .rbrack => 4
  | .colon => 5
  | .comma => 6
  | .tstr s => 7 + 13 * s.toList.foldl (fun a c => a * 131 + c.toNat) 1
  | .tint n => 8 + 17 * (2 * n.natAbs + if n < 0 then 1 else 0)
  | .tbool b => if b then 9 else 10
  | .tnull => 11

/-- Model of the keyed authentication tag the Fernet cipher computes
over its ciphertext: a deterministic function of key and body returning
32 bytes. -/
def fernetMac (key : FernetKey) (body : List Tok) : Bytes :=
  (List.range 32).map fun i =>
    (key.foldl (fun a c => a * 131 + c.toNat) 3 +
     body.foldl (fun a t => a * 257 + tokHash t) 5 + i * 19) % 256

/-- Fernet keys must be the urlsafe-base64 encoding of 32 bytes, hence
44 characters; `Fernet(key)` rejects anything else. -/
def validFernetKey (key : FernetKey) : Bool :=
  key.length = 44

/-- Model of `Fernet(key).encrypt`: package the serialized payload with
its authentication tag. -/
def fernetEncrypt (key : FernetKey) (body : List Tok) : FernetToken :=
  ⟨body, fernetMac key body⟩

/-- Model of `Fernet(key).decrypt`: verify the tag, then return the
protected bytes; reject (raise `InvalidToken`) when the tag does not
match the key. -/
def fernetDecrypt (key : FernetKey) (t : FernetToken) : Option (List Tok) :=
  if t.tag = fernetMac key t.body then some t.body else none

/-- Model of HMAC-SHA256: a deterministic keyed digest of 32 bytes. -/
def hmacSha256 (key msg : Bytes) : Bytes :=
  (List.range 32).map fun i =>
    (key.foldl (fun a b => a * 31 + b) 3 +
     msg.foldl (fun a b => a * 37 + b) 5 + i * 23) % 256

/-- One lowercase hex digit. -/
def hexChar (n : Nat) : Char :=
  "0123456789abcdef".toList.getD n '0'

/-- Lowercase hex rendering of a digest (`hexdigest()`). -/
def hexDigest (bs : Bytes) : String :=
  String.mk (bs.foldr (fun b acc => hexChar (b / 16 % 16) :: hexChar (b % 16) :: acc) [])

/-- Byte view of a token stream, fed to the integrity digest. -/
def tokStreamBytes (ts : List Tok) : Bytes :=
  ts.map fun t => tokHash t % 256

mutual

/-- Model of `json.dumps` at token granularity: emit the token stream of
the JSON text of a value.  Object entries are emitted in insertion
order (Python `sort_keys` defaults to false). -/
def dumpToks : Json → List Tok
  | .jstr s => [.tstr s]
  | .jint n => [.tint n]
  | .jbool b => [.tbool b]
  | .jnull => [.tnull]
  | .jarr xs => .lbrack :: (dumpArr xs ++ [.rbrack])
  | .jobj es => .lbrace :: (dumpObj es ++ [.rbrace])

/-- Comma-separated array elements. -/
def dumpArr : List Json → List Tok
  | [] => []
  | [x] => dumpToks x
  | x :: y :: xs => dumpToks x ++ .comma :: dumpArr (y :: xs)

/-- Comma-separated `key: value` object members. -/
def dumpObj : List (String × Json) → List Tok
  | [] => []
  | [(k, v)] => .tstr k :: .colon :: dumpToks v
  | (k, v) :: e :: es => .tstr k :: .colon :: (dumpToks v ++ .comma :: dumpObj (e :: es))

end

mutual

/-- Model of `json.loads`, value production: fuelled recursive-descent
reading of a token stream.  Returns the parsed value and the unconsumed
remainder. -/
def parseVal : Nat → List Tok → Option (Json × List Tok)
  | 0, _ => none
  | _ + 1, .tstr s :: r => some (.jstr s, r)
  | _ + 1, .tint n :: r => some (.jint n, r)
  | _ + 1, .tbool b :: r => some (.jbool b, r)
  | _ + 1, .tnull :: r => some (.jnull, r)
  | _ + 1, .lbrack :: .rbrack :: r => some (.jarr [], r)
  | f + 1, .lbrack :: r =>
    match parseArrItems f r with
    | some (xs, r2) => some (.jarr xs, r2)
    | none => none
  | _ + 1, .lbrace :: .rbrace :: r => some (.jobj [], r)
  | f + 1, .lbrace :: r =>
    match parseObjItems f r with
    | some (es, r2) => some (.jobj es, r2)
    | none => none
  | _ + 1, _ => none

/-- One-or-more comma-separated array elements, terminated by `]`. -/
def parseArrItems : Nat → List Tok → Option (List Json × List Tok)
  | 0, _ => none
  | f + 1, ts =>
    match parseVal f ts with
    | some (x, .comma :: r2) =>
      match parseArrItems f r2 with
      | some (xs, r3) => some (x :: xs, r3)
      | none => none
    | some (x, .rbrack :: r2) => some ([x], r2)
    | _ => none

/-- One-or-more comma-separated object members, terminated by `}`. -/
def parseObjItems : Nat → List Tok → Option (List (String × Json) × List Tok)
  | 0, _ => none
  | f + 1, .tstr k :: .colon :: ts =>
    match parseVal f ts with
    | some (v, .comma :: r2) =>
      match parseObjItems f r2 with
      | some (es, r3) => some ((k, v) :: es, r3)
      | none => none
    | some (v, .rbrace :: r2) => some ([(k, v)], r2)
    | _ => none
  | _ + 1, _ => none

end

/-- Model of `json.loads` on a whole document: parse one value and
require the stream to be exhausted.  The fuel bound suffices for every
serialized value (`parseVal_dumpToks` below). -/
def jsonLoads (ts : List Tok) : Option Json :=
  match parseVal (2 * ts.length + 2) ts with
  | some (j, []) => some j
  | _ => none

mutual

/-- Fuel needed by `parseVal` to read back a serialized value. -/
def sizeV : Json → Nat
  | .jstr _ => 1
  | .jint _ => 1
  | .jbool _ => 1
  | .jnull => 1
  | .jarr [] => 1
  | .jarr (x :: xs) => 1 + sizeA (x :: xs)
  | .jobj [] => 1
  | .jobj (e :: es) => 1 + sizeO (e :: es)

/-- Fuel needed by `parseArrItems` for a serialized element list. -/
def sizeA : List Json → Nat
  | [] => 1
  | x :: xs => 1 + sizeV x + sizeA xs

/-- Fuel needed by `parseObjItems` for a serialized member list. -/
def sizeO : List (String × Json) → Nat
  | [] => 1
  | (_, v) :: es => 1 + sizeV v + sizeO es

end

theorem sizeV_pos (j : Json) : 1 ≤ sizeV j := by
  cases j with
  | jarr xs => cases xs <;> simp only [sizeV] <;> omega
  | jobj es => cases es <;> simp only [sizeV] <;> omega
  | jstr s => simp [sizeV]
  | jint n => simp [sizeV]
  | jbool b => simp [sizeV]
  | jnull => simp [sizeV]

theorem sizeA_pos (xs : List Json) : 1 ≤ sizeA xs := by
  cases xs <;> simp only [sizeA] <;> omega

theorem sizeO_pos (es : List (String × Json)) : 1 ≤ sizeO es := by
  cases es with
  | nil => simp [sizeO]
  | cons e es => cases e; simp only [sizeO]; omega

/-- Tokens that can open a serialized value (everything except the
structural closers and separators). -/
def headOpenTok : Tok → Bool
  | .rbrack => false
  | .rbrace => false
  | .comma => false
  | .colon => false
  | _ => true

/-- Every serialized value is nonempty and starts with an opening
token. -/
theorem dumpToks_head (j : Json) :
    ∃ t ts, dumpToks j = t :: ts ∧ headOpenTok t = true := by
  cases j with
  | jstr s => exact ⟨_, _, rfl, rfl⟩
  | jint n => exact ⟨_, _, rfl, rfl⟩
  | jbool b => exact ⟨_, _, rfl, rfl⟩
  | jnull => exact ⟨_, _, rfl, rfl⟩
  | jarr xs => exact ⟨_, _, rfl, rfl⟩
  | jobj es => exact ⟨_, _, rfl, rfl⟩

/-- The parser reads back exactly what the serializer emitted, leaving
any remainder untouched, for every fuel at least the size measure. -/
theorem parse_dump : ∀ f : Nat,
    (∀ j rest, sizeV j ≤ f → parseVal f (dumpToks j ++ rest) = some (j, rest)) ∧
    (∀ xs rest, xs ≠ [] → sizeA xs ≤ f →
      parseArrItems f (dumpArr xs ++ .rbrack :: rest) = some (xs, rest)) ∧
    (∀ es rest, es ≠ [] → sizeO es ≤ f →
      parseObjItems f (dumpObj es ++ .rbrace :: rest) = some (es, rest)) := by
  intro f
  induction f with
  | zero =>
    refine ⟨fun j rest h => absurd h (by have := sizeV_pos j; omega),
            fun xs rest hne h => absurd h (by have := sizeA_pos xs; omega),
            fun es rest hne h => absurd h (by have := sizeO_pos es; omega)⟩
  | succ f ih =>
    obtain ⟨ihV, ihA, ihO⟩ := ih
    refine ⟨?_, ?_, ?_⟩
    · intro j rest h
      cases j with
      | jstr s => simp [dumpToks, parseVal]
      | jint n => simp [dumpToks, parseVal]
      | jbool b => simp [dumpToks, parseVal]
      | jnull => simp [dumpToks, parseVal]
      | jarr xs =>
        cases xs with
        | nil => simp [dumpToks, dumpArr, parseVal]
        | cons x xs =>
          obtain ⟨t, ts, hd, hopen⟩ := dumpToks_head x
          have htl : ∃ tl, dumpArr (x :: xs) = t :: tl := by
            cases xs with
            | nil => exact ⟨ts, by simp [dumpArr, hd]⟩
            | cons y ys => exact ⟨ts ++ .comma :: dumpArr (y :: ys), by simp [dumpArr, hd]⟩
          obtain ⟨tl, htl⟩ := htl
          have hsa : sizeA (x :: xs) ≤ f := by
            simp [sizeV] at h; omega
          have hres := ihA (x :: xs) rest (by simp) hsa
          rw [htl] at hres
          simp only [dumpToks, htl, List.cons_append, List.append_assoc, List.singleton_append]
          cases t <;> simp_all [parseVal, headOpenTok]
      | jobj es =>
        cases es with
        | nil => simp [dumpToks, dumpObj, parseVal]
        | cons e es =>
          obtain ⟨k, v⟩ := e
          have htl : ∃ tl, dumpObj ((k, v) :: es) = .tstr k :: .colon :: tl := by
            cases es with
            | nil => exact ⟨dumpToks v, by simp [dumpObj]⟩
            | cons e2 es2 => exact ⟨dumpToks v ++ .comma :: dumpObj (e2 :: es2), by simp [dumpObj]⟩
          obtain ⟨tl, htl⟩ := htl
          have hso : sizeO ((k, v) :: es) ≤ f := by
            simp [sizeV] at h; omega
          have hres := ihO ((k, v) :: es) rest (by simp) hso
          rw [htl] at hres
          simp only [dumpToks, htl, List.cons_append, List.append_assoc, List.singleton_append]
          simp_all [parseVal]
    · intro xs rest hne h
      cases xs with
      | nil => exact absurd rfl hne
      | cons x xs =>
        cases xs with
        | nil =>
          have hx : sizeV x ≤ f := by simp [sizeA] at h; omega
          have hv := ihV x (.rbrack :: rest) hx
          simp only [dumpArr, parseArrItems]
          rw [hv]
        | cons y ys =>
          have hx : sizeV x ≤ f := by simp only [sizeA] at h; omega
          have hrest : sizeA (y :: ys) ≤ f := by simp only [sizeA] at h ⊢; omega
          have hv := ihV x (.comma :: (dumpArr (y :: ys) ++ .rbrack :: rest)) hx
          have ha := ihA (y :: ys) rest (by simp) hrest
          simp only [dumpArr, parseArrItems, List.cons_append, List.append_assoc]
          rw [hv]
          simp [ha]
    · intro es rest hne h
      cases es with
      | nil => exact absurd rfl hne
      | cons e es =>
        obtain ⟨k, v⟩ := e
        cases es with
        | nil =>
          have hx : sizeV v ≤ f := by simp only [sizeO] at h; omega
          have hv := ihV v (.rbrace :: rest) hx
          simp only [dumpObj, parseObjItems, List.cons_append, List.append_eq]
          rw [hv]
        | cons e2 es2 =>
          have hx : sizeV v ≤ f := by simp only [sizeO] at h; omega
          have hrest : sizeO (e2 :: es2) ≤ f := by simp only [sizeO] at h ⊢; omega
          have hv := ihV v (.comma :: (dumpObj (e2 :: es2) ++ .rbrace :: rest)) hx
          have ho := ihO (e2 :: es2) rest (by simp) hrest
          simp only [dumpObj, parseObjItems, List.cons_append, List.append_assoc,
            List.append_eq]
          rw [hv]
          simp [ho]

/-- The size measure is bounded by twice the token count of the
serialization. -/
theorem sizeV_le_dump : ∀ n : Nat,
    (∀ j : Json, sizeOf j ≤ n → sizeV j ≤ 2 * (dumpToks j).length) ∧
    (∀ xs : List Json, sizeOf xs ≤ n → sizeA xs ≤ 2 * (dumpArr xs).length + 3) ∧
    (∀ es : List (String × Json), sizeOf es ≤ n → sizeO es ≤ 2 * (dumpObj es).length + 3) := by
  intro n
  induction n with
  | zero =>
    refine ⟨fun j h => ?_, fun xs h => ?_, fun es h => ?_⟩
    · cases j <;> simp_all
    · cases xs <;> simp_all
    · cases es <;> simp_all
  | succ n ih =>
    obtain ⟨ih1, ih2, ih3⟩ := ih
    refine ⟨?_, ?_, ?_⟩
    · intro j h
      cases j with
      | jstr s => simp [sizeV, dumpToks]
      | jint m => simp [sizeV, dumpToks]
      | jbool b => simp [sizeV, dumpToks]
      | jnull => simp [sizeV, dumpToks]
      | jarr xs =>
        cases xs with
        | nil => simp [sizeV, dumpToks, dumpArr]
        | cons x xs =>
          have hx : sizeOf (x :: xs) ≤ n := by simp at h ⊢; omega
          have := ih2 (x :: xs) hx
          simp only [sizeV, dumpToks, List.length_cons, List.length_append,
            List.length_singleton]
          omega
      | jobj es =>
        cases es with
        | nil => simp [sizeV, dumpToks, dumpObj]
        | cons e es =>
          have he : sizeOf (e :: es) ≤ n := by simp at h ⊢; omega
          have := ih3 (e :: es) he
          simp only [sizeV, dumpToks, List.length_cons, List.length_append,
            List.length_singleton]
          omega
    · intro xs h
      cases xs with
      | nil => simp [sizeA, dumpArr]
      | cons x xs =>
        have hx : sizeOf x ≤ n := by simp at h; omega
        have h1 := ih1 x hx
        cases xs with
        | nil => simp only [sizeA, dumpArr]; omega
        | cons y ys =>
          have hy : sizeOf (y :: ys) ≤ n := by simp at h ⊢; omega
          have h2 := ih2 (y :: ys) hy
          simp only [sizeA] at h2
          simp only [sizeA, dumpArr, List.length_append, List.length_cons]
          omega
    · intro es h
      cases es with
      | nil => simp [sizeO, dumpObj]
      | cons e es =>
        obtain ⟨k, v⟩ := e
        have hv : sizeOf v ≤ n := by simp at h; omega
        have h1 := ih1 v hv
        cases es with
        | nil => simp only [sizeO, dumpObj, List.length_cons]; omega
        | cons e2 es2 =>
          have he : sizeOf (e2 :: es2) ≤ n := by simp at h ⊢; omega
          have h2 := ih3 (e2 :: es2) he
          simp only [sizeO] at h2
          simp only [sizeO, dumpObj, List.length_cons, List.length_append]
          omega

/-- Serialization round-trip: parsing a dumped value returns the value. -/
theorem jsonLoads_dumpToks (j : Json) : jsonLoads (dumpToks j) = some j := by
  have hb := (sizeV_le_dump (sizeOf j)).1 j (le_refl _)
  have hp := (parse_dump (2 * (dumpToks j).length + 2)).1 j [] (by omega)
  rw [List.append_nil] at hp
  simp [jsonLoads, hp]

/-- File contents, at the abstraction level each file is produced and
consumed: raw bytes (the salt file), a Fernet token (the encrypted
file), or JSON text (the plaintext legacy file). -/
inductive FileData where
  | bin (bs : Bytes)
  | ftok (t : FernetToken)
  | jsonText (ts : List Tok)
deriving DecidableEq

/-- Filesystem state: an association list from path to content; a write
shadows earlier bindings of the same path. -/
abbrev FsState := List (String × FileData)

/-- Content of the file at a path, `none` when absent. -/
def fsLookup : FsState → String → Option FileData
  | [], _ => none
  | (q, c) :: rest, p => if q = p then some c else fsLookup rest p

/-- Model of `os.path.exists`. -/
def fsExists (st : FsState) (p : String) : Bool :=
  (fsLookup st p).isSome

/-- One filesystem side effect of a save operation. -/
inductive FsOp where
  | writeFile (path : String) (content : FileData)
  | removeFile (path : String)
deriving DecidableEq

/-- Apply one operation to a filesystem state. -/
def applyOp (st : FsState) : FsOp → FsState
  | .writeFile p c => (p, c) :: st
  | .removeFile p => st.filter fun e => !(e.1 == p)

/-- Apply a trace of operations in order. -/
def applyOps (st : FsState) (ops : List FsOp) : FsState :=
  ops.foldl applyOp st

/-- The out-of-band process environment (`os.getenv`): the vault
password slot and the integrity-secret slot. -/
structure OsEnv where
  configPassword : Option String
  dataIntegrityKey : Option String
deriving DecidableEq

/-- Python truthiness of `os.getenv(...)`: absent or empty both count as
"not set". -/
def envStrMissing : Option String → Bool
  | none => true
  | some s => s = ""

/-- Shallow embedding of `generate_key` (config_utils.py, lines 22-33)
and of the line-for-line identical `derive_key` (secure_data_utils.py,
lines 26-37), success value: derive 32 bytes by PBKDF2HMAC-SHA256 at
100000 iterations over the given salt (fresh 16 random bytes — the
`entropy` argument — when the salt is absent) and return the
urlsafe-base64 key text together with the salt. -/
def generateKeyCore (password : String) (saltOpt : Option Bytes) (entropy : Bytes) :
    FernetKey × Bytes :=
  let salt := saltOpt.getD entropy
  (urlsafeB64Encode (pbkdf2Sha256 (strBytes password) salt 100000 32), salt)

/-- Shallow embedding of `generate_key` as a fallible call: the source
body contains no failure path, so every input returns `ok`. -/
def generate_key (password : String) (saltOpt : Option Bytes) (entropy : Bytes) :
    Except PyExc (FernetKey × Bytes) :=
  .ok (generateKeyCore password saltOpt entropy)

/-- Shallow embedding of `derive_key` (secure_data_utils.py): identical
body to `generate_key`. -/
def derive_key (password : String) (saltOpt : Option Bytes) (entropy : Bytes) :
    Except PyExc (FernetKey × Bytes) :=
  .ok (generateKeyCore password saltOpt entropy)

/-- Shallow embedding of `encrypt_config` (config_utils.py):
`Fernet(key).encrypt(json.dumps(config).encode())`.  `Fernet(key)`
rejects malformed keys. -/
def encrypt_config (config : Json) (key : FernetKey) : Except PyExc FernetToken :=
  if validFernetKey key then .ok (fernetEncrypt key (dumpToks config))
  else .error (.invalidToken "Fernet key must be 32 url-safe base64-encoded bytes.")

/-- Shallow embedding of `decrypt_config` (config_utils.py):
`json.loads(Fernet(key).decrypt(encrypted_data).decode())`. -/
def decrypt_config (encrypted_data : FernetToken) (key : FernetKey) :
    Except PyExc Json :=
  if validFernetKey key then
    match fernetDecrypt key encrypted_data with
    | some body =>
      match jsonLoads body with
      | some j => .ok j
      | none => .error (.jsonDecodeError "Expecting value")
    | none => .error (.invalidToken "")
  else .error (.invalidToken "Fernet key must be 32 url-safe base64-encoded bytes.")

/-- Which branch of `load_config` produced the payload: the encrypted
vault or the unencrypted legacy file. -/
inductive LoadBranch where
  | encrypted
  | plaintext
deriving DecidableEq

/-- Shallow embedding of the body of `load_config` (config_utils.py,
lines 45-79) up to the surrounding `except Exception` block: resolve the
default path, take the encrypted branch when `{path}.enc` exists
(requiring the CONFIG_PASSWORD environment value and the `{path}.salt`
file), otherwise open the plaintext file at `{path}`.  The returned
`LoadBranch` records which branch produced the payload. -/
def loadConfigBody (env : OsEnv) (st : FsState) (configPath : Option String) :
    Except PyExc (LoadBranch × Json) :=
  let config_path := configPath.getD "config/config.json"
  let encrypted_path := config_path ++ ".enc"
  if fsExists st encrypted_path then
    if envStrMissing env.configPassword then
      .error (.configError "CONFIG_PASSWORD environment variable not set")
    else
      let password := env.configPassword.getD ""
      let salt_path := config_path ++ ".salt"
      if fsExists st salt_path then
        let salt := match fsLookup st salt_path with
                    | some (.bin bs) => bs
                    | _ => []
        match generate_key password (some salt) [] with
        | .error e => .error e
        | .ok (key, _) =>
          let dec : Except PyExc Json :=
            match fsLookup st encrypted_path with
            | some (.ftok t) => decrypt_config t key
            | _ => .error (.invalidToken "")
          dec.map fun j => (.encrypted, j)
      else .error (.configError "Salt file not found")
  else
    match fsLookup st config_path with
    | some (.jsonText ts) =>
      match jsonLoads ts with
      | some j => .ok (.plaintext, j)
      | none => .error (.jsonDecodeError "Expecting value")
    | some _ => .error (.jsonDecodeError "Expecting value")
    | none =>
      .error (.fileNotFoundError
        ("[Errno 2] No such file or directory: " ++ config_path))

/-- Shallow embedding of `load_config` (config_utils.py, lines 45-79):
the body wrapped by the `except Exception as e: raise ConfigError(...)`
block, which re-raises every failure as a `ConfigError` carrying the
inner message. -/
def load_config (env : OsEnv) (st : FsState) (configPath : Option String) :
    Except PyExc (LoadBranch × Json) :=
  match loadConfigBody env st configPath with
  | .ok r => .ok r
  | .error e =>
    .error (.configError ("Failed to load configuration: " ++ excMessage e))

/-- Shallow embedding of `save_config` (config_utils.py, lines 81-112)
as the trace of filesystem operations it performs, in program order.
With a (truthy) password: derive a fresh key and salt, write the salt to
`{path}.salt`, encrypt and write the token to `{path}.enc`, then remove
the unencrypted file at `{path}` if it exists.  Without a password:
write the plaintext JSON to `{path}`.  An encryption failure raises
before any write. -/
def save_config_ops (config : Json) (configPath : Option String)
    (password : Option String) (entropy : Bytes) (st : FsState) : List FsOp :=
  let config_path := configPath.getD "config/config.json"
  if envStrMissing password then
    [.writeFile config_path (.jsonText (dumpToks config))]
  else
    let pw := password.getD ""
    let (key, salt) := generateKeyCore pw none entropy
    let salt_path := config_path ++ ".salt"
    match encrypt_config config key with
    | .error _ => []
    | .ok tok =>
      let encrypted_path := config_path ++ ".enc"
      [.writeFile salt_path (.bin salt), .writeFile encrypted_path (.ftok tok)] ++
        (if fsExists st config_path then [.removeFile config_path] else [])

/-- Shallow embedding of `encrypt_data` (secure_data_utils.py, lines
39-46): `Fernet(key).encrypt(json.dumps(data).encode())`, failures
wrapped into `SecureDataError`. -/
def encrypt_data (data : Json) (key : FernetKey) : Except PyExc FernetToken :=
  if validFernetKey key then .ok (fernetEncrypt key (dumpToks data))
  else
    .error (.secureDataError
      "Failed to encrypt data: Fernet key must be 32 url-safe base64-encoded bytes.")

/-- Shallow embedding of `decrypt_data` (secure_data_utils.py, lines
48-55): `json.loads(Fernet(key).decrypt(encrypted_data).decode())`,
failures wrapped into `SecureDataError`. -/
def decrypt_data (encrypted_data : FernetToken) (key : FernetKey) :
    Except PyExc Json :=
  if validFernetKey key then
    match fernetDecrypt key encrypted_data with
    | some body =>
      match jsonLoads body with
      | some j => .ok j
      | none => .error (.secureDataError "Failed to decrypt data: Expecting value")
    | none => .error (.secureDataError "Failed to decrypt data: ")
  else
    .error (.secureDataError
      "Failed to decrypt data: Fernet key must be 32 url-safe base64-encoded bytes.")

/-- Shallow embedding of `secure_save` (secure_data_utils.py, lines
57-77) as its filesystem trace: derive a fresh key and salt, encrypt,
write the salt to `{filepath}.salt`, then write the token to
`{filepath}` itself.  A derivation or encryption failure raises before
any write. -/
def secure_save_ops (data : Json) (filepath : String) (password : String)
    (entropy : Bytes) : List FsOp :=
  let (key, salt) := generateKeyCore password none entropy
  match encrypt_data data key with
  | .error _ => []
  | .ok tok =>
    [.writeFile (filepath ++ ".salt") (.bin salt), .writeFile filepath (.ftok tok)]

/-- Shallow embedding of `secure_load` (secure_data_utils.py, lines
79-101): require `{filepath}.salt`, derive the key from the supplied
password and the stored salt, then decrypt `{filepath}`; failures are
re-raised as `SecureDataError` with the inner message. -/
def secure_load (st : FsState) (filepath : String) (password : String) :
    Except PyExc Json :=
  let inner : Except PyExc Json :=
    let salt_path := filepath ++ ".salt"
    if fsExists st salt_path then
      let salt := match fsLookup st salt_path with
                  | some (.bin bs) => bs
                  | _ => []
      match derive_key password (some salt) [] with
      | .error e => .error e
      | .ok (key, _) =>
        match fsLookup st filepath with
        | some (.ftok t) => decrypt_data t key
        | some _ => .error (.invalidToken "")
        | none =>
          .error (.fileNotFoundError
            ("[Errno 2] No such file or directory: " ++ filepath))
    else .error (.secureDataError "Salt file not found")
  match inner with
  | .ok r => .ok r
  | .error e =>
    .error (.secureDataError ("Failed to load data securely: " ++ excMessage e))

/-- Ascending stable sort of object entries by key: the member ordering
`json.dumps(..., sort_keys=True)` emits. -/
def sortEntries (es : List (String × Json)) : List (String × Json) :=
  List.insertionSort (fun a b => a.1 ≤ b.1) es

mutual

/-- Recursive canonicalization underlying
`json.dumps(data, sort_keys=True)`: every object has its entries emitted
in ascending key order, at all nesting depths.  Serializing the
canonicalized value with `dumpToks` is the token stream of the
sort_keys text. -/
def canon : Json → Json
  | .jstr s => .jstr s
  | .jint n => .jint n
  | .jbool b => .jbool b
  | .jnull => .jnull
  | .jarr xs => .jarr (canonList xs)
  | .jobj es => .jobj (sortEntries (canonEntries es))

/-- Canonicalize each array element. -/
def canonList : List Json → List Json
  | [] => []
  | x :: xs => canon x :: canonList xs

/-- Canonicalize each entry value, keeping entry order (sorting is
applied afterwards). -/
def canonEntries : List (String × Json) → List (String × Json)
  | [] => []
  | (k, v) :: es => (k, canon v) :: canonEntries es

end

/-- The digest `verify_data_integrity` computes internally:
`hmac.new(secret_key.encode(), json.dumps(data, sort_keys=True).encode(),
hashlib.sha256).hexdigest()`. -/
def calculated_signature (secret_key : String) (data : Json) : String :=
  hexDigest (hmacSha256 (strBytes secret_key) (tokStreamBytes (dumpToks (canon data))))

/-- Shallow embedding of `verify_data_integrity` (secure_data_utils.py,
lines 103-123): read the integrity secret from the environment (absent
or empty is fatal), recompute the HMAC over the sort_keys serialization
and compare with the supplied signature (`hmac.compare_digest`, whose
result equals string equality). -/
def verify_data_integrity (env : OsEnv) (data : Json) (signature : String) :
    Except PyExc Bool :=
  if envStrMissing env.dataIntegrityKey then
    .error (.secureDataError
      "Failed to verify data integrity: DATA_INTEGRITY_KEY environment variable not set")
  else
    let secret_key := env.dataIntegrityKey.getD ""
    .ok (calculated_signature secret_key data == signature)

/-- The sensitive-field vocabulary of `sanitize_sensitive_data`
(secure_data_utils.py, lines 127-130). -/
def sensitive_fields : List String :=
  ["api_key", "password", "token", "secret", "key",
   "credit_card", "ssn", "social_security", "account_number"]

/-- Substring containment on character lists: Python `needle in hay`. -/
def listContainsSub (needle : List Char) : List Char → Bool
  | [] => needle.isEmpty
  | c :: tl => needle.isPrefixOf (c :: tl) || listContainsSub needle tl

/-- Python `needle in hay` on strings. -/
def pyIn (needle hay : String) : Bool :=
  listContainsSub needle.toList hay.toList

/-- ASCII lowercase of one character: the model of `str.lower()` on the
characters it affects here. -/
def lowerChar (c : Char) : Char :=
  if 65 ≤ c.toNat ∧ c.toNat ≤ 90 then Char.ofNat (c.toNat + 32) else c

/-- Model of Python `str.lower()`. -/
def lowerStr (s : String) : String :=
  String.mk (s.toList.map lowerChar)

/-- The key test of `sanitize_dict`:
`any(field in key.lower() for field in sensitive_fields)`. -/
def isSensitiveKey (key : String) : Bool :=
  sensitive_fields.any fun field => pyIn field (lowerStr key)

/-- Shallow embedding of `mask_value` (secure_data_utils.py, lines
132-135): `"*" * len(value)` when `len(value) <= 4`, else
`value[:2] + "*" * (len(value) - 4) + value[-2:]`. -/
def mask_value (value : String) : String :=
  if value.length ≤ 4 then String.mk (List.replicate value.length '*')
  else String.mk (value.toList.take 2 ++
    List.replicate (value.length - 4) '*' ++
    value.toList.drop (value.length - 2))

/-- Shallow embedding of `sanitize_dict` (secure_data_utils.py, lines
137-146): walk the entries in order; recurse into dict values, mask
string values under sensitive keys, pass everything else through. -/
def sanitize_dict : List (String × Json) → List (String × Json)
  | [] => []
  | (key, .jobj inner) :: rest =>
    (key, .jobj (sanitize_dict inner)) :: sanitize_dict rest
  | (key, .jstr s) :: rest =>
    (if isSensitiveKey key then (key, .jstr (mask_value s)) else (key, .jstr s)) ::
      sanitize_dict rest
  | (key, v) :: rest => (key, v) :: sanitize_dict rest

/-- Shallow embedding of `sanitize_sensitive_data` (secure_data_utils.py,
lines 125-148): apply `sanitize_dict` to the payload entries. -/
def sanitize_sensitive_data (data : List (String × Json)) : List (String × Json) :=
  sanitize_dict data

/-- The masking transform as the specification words it: a string of
length at most four becomes a `*` string of the same length; a longer
string keeps its first two and its last two characters and every
character in between becomes `*` (the last two characters written via
reversal, independently of the slicing the code uses). -/
def spec_mask (value : String) : String :=
  if value.length ≤ 4 then String.mk (List.replicate value.length '*')
  else String.mk (value.toList.take 2 ++
    List.replicate (value.length - 4) '*' ++
    (value.toList.reverse.take 2).reverse)

/-- The sensitivity test as the specification words it: the key
case-insensitively contains one of the vocabulary terms (both sides
lowercased). -/
def spec_sensitive (key : String) : Bool :=
  sensitive_fields.any fun term => pyIn (lowerStr term) (lowerStr key)

/-- Heap-level Python values, for stating mutation properties of the
redactor: a dict value is a reference into the store, every other value
is held inline.  List contents may themselves hold dict references; the
redactor does not follow them. -/
inductive HVal where
  | hstr (s : String)
  | hint (n : Int)
  | hbool (b : Bool)
  | hnull
  | href (a : Nat)
  | hlist (xs : List HVal)

/-- A heap dictionary: insertion-ordered entries. -/
abbrev HDict := List (String × HVal)

/-- The store of allocated dictionaries; an address is an index, and
allocation appends. -/
abbrev Store := List HDict

mutual

/-- Heap-level embedding of `sanitize_dict` applied to the dictionary at
address `a`: read its entries, build the sanitized entries (allocating a
fresh dictionary for every nested dict reference), then allocate the
result dictionary (`result = {}` in the source) and return its address.
Fuel bounds the recursion depth (Python payloads are acyclic; fuel
exhaustion returns `none`).  Every write in the body targets a freshly
allocated address, never an input address. -/
def sanitizeDictH : Nat → Store → Nat → Store × Option Nat
  | 0, st, _ => (st, none)
  | fuel + 1, st, a =>
    match sanitizeEntriesH fuel st (st.getD a []) with
    | (st1, none) => (st1, none)
    | (st1, some d) => (st1 ++ [d], some st1.length)
termination_by fuel _ _ => (fuel, 0)

/-- Sanitize a list of entries in order, threading the store. -/
def sanitizeEntriesH : Nat → Store → HDict → Store × Option HDict
  | _, st, [] => (st, some [])
  | fuel, st, (key, .href b) :: rest =>
    match sanitizeDictH fuel st b with
    | (st1, none) => (st1, none)
    | (st1, some r) =>
      match sanitizeEntriesH fuel st1 rest with
      | (st2, none) => (st2, none)
      | (st2, some es) => (st2, some ((key, .href r) :: es))
  | fuel, st, (key, .hstr s) :: rest =>
    match sanitizeEntriesH fuel st rest with
    | (st2, none) => (st2, none)
    | (st2, some es) =>
      (st2, some ((key, if isSensitiveKey key then .hstr (mask_value s)
                        else .hstr s) :: es))
  | fuel, st, (key, v) :: rest =>
    match sanitizeEntriesH fuel st rest with
    | (st2, none) => (st2, none)
    | (st2, some es) => (st2, some ((key, v) :: es))
termination_by fuel _ d => (fuel, d.length + 1)

end

theorem pbkdf2Sha256_length (pw salt : Bytes) (iters len : Nat) :
    (pbkdf2Sha256 pw salt iters len).length = len := by
  simp [pbkdf2Sha256]

theorem generateKeyCore_key_length (pw : String) (saltOpt : Option Bytes)
    (entropy : Bytes) : ((generateKeyCore pw saltOpt entropy).1).length = 44 := by
  simp [generateKeyCore, urlsafeB64Encode_length, pbkdf2Sha256_length]

theorem generateKeyCore_valid (pw : String) (saltOpt : Option Bytes)
    (entropy : Bytes) : validFernetKey (generateKeyCore pw saltOpt entropy).1 = true := by
  simp [validFernetKey, generateKeyCore_key_length]

mutual

/-- Well-formed payloads: every object, at every depth, has pairwise
distinct keys — the invariant Python dicts provide by construction. -/
def wfJson : Json → Bool
  | .jstr _ => true
  | .jint _ => true
  | .jbool _ => true
  | .jnull => true
  | .jarr xs => wfList xs
  | .jobj es => (es.map Prod.fst).Nodup && wfEntries es

def wfList : List Json → Bool
  | [] => true
  | x :: xs => wfJson x && wfList xs

def wfEntries : List (String × Json) → Bool
  | [] => true
  | (_, v) :: es => wfJson v && wfEntries es

end

/-- C3 (amended): key derivation never fails; for every password —
including the empty string — `generate_key` succeeds, returning the
urlsafe-base64 encoding of 32 derived bytes (44 characters) together
with the 16-byte salt.  No `WeakInputError` (or any other rejection of
empty passwords) exists in the code. -/
theorem generate_key_never_fails (password : String) (saltOpt : Option Bytes)
    (entropy : Bytes) (hsalt : (saltOpt.getD entropy).length = 16) :
    ∃ key salt, generate_key password saltOpt entropy = .ok (key, salt) ∧
      key.length = 44 ∧ salt.length = 16 ∧
      ∃ raw, raw.length = 32 ∧ key = urlsafeB64Encode raw := by
  refine ⟨(generateKeyCore password saltOpt entropy).1,
          (generateKeyCore password saltOpt entropy).2, rfl,
          generateKeyCore_key_length password saltOpt entropy, hsalt,
          pbkdf2Sha256 (strBytes password) (saltOpt.getD entropy) 100000 32,
          pbkdf2Sha256_length _ _ _ _, rfl⟩

/-- Witness for `generate_key_never_fails` at a concrete input. -/
theorem generate_key_never_fails_witness :
    ∃ key salt, generate_key "pw" (some (List.replicate 16 0)) [] = .ok (key, salt) ∧
      key.length = 44 ∧ salt.length = 16 ∧
      ∃ raw, raw.length = 32 ∧ key = urlsafeB64Encode raw :=
  generate_key_never_fails "pw" (some (List.replicate 16 0)) [] (by decide)

/-- C3 counterexample: the claim says `derive` fails with
`WeakInputError` on the empty password; in the code the call with the
empty password succeeds (returns `ok`), since no empty-password check
exists. -/
theorem generate_key_empty_password_succeeds :
    exceptIsOk (generate_key "" (some (List.replicate 16 0)) []) = true := rfl

/-- C4: encryption followed by decryption under the same valid key is
the identity on payload mappings: `decrypt_data (encrypt_data P k) k`
returns exactly `P`. -/
theorem encrypt_decrypt_roundtrip (entries : List (String × Json))
    (key : FernetKey) (hkey : validFernetKey key = true)
    (hwf : wfJson (.jobj entries) = true) :
    ∃ tok, encrypt_data (.jobj entries) key = .ok tok ∧
      decrypt_data tok key = .ok (.jobj entries) := by
  refine ⟨fernetEncrypt key (dumpToks (.jobj entries)), ?_, ?_⟩
  · simp [encrypt_data, hkey]
  · simp [decrypt_data, hkey, fernetDecrypt, fernetEncrypt, jsonLoads_dumpToks]

/-- Witness for `encrypt_decrypt_roundtrip` at a concrete payload and
key. -/
theorem encrypt_decrypt_roundtrip_witness :
    ∃ tok, encrypt_data (.jobj [("a", .jint 1)]) (List.replicate 44 'A') = .ok tok ∧
      decrypt_data tok (List.replicate 44 'A') = .ok (.jobj [("a", .jint 1)]) :=
  encrypt_decrypt_roundtrip [("a", .jint 1)] (List.replicate 44 'A')
    (by decide) (by decide)

theorem spec_mask_eq_mask_value (s : String) : spec_mask s = mask_value s := by
  unfold spec_mask mask_value
  by_cases h : s.length ≤ 4
  · simp [h]
  · have hrev : (s.data.reverse.take 2).reverse = s.data.drop (s.length - 2) := by
      rw [List.take_reverse, List.reverse_reverse]
      rfl
    simp [h, hrev]

theorem spec_sensitive_eq_isSensitiveKey (key : String) :
    spec_sensitive key = isSensitiveKey key := by
  have h1 : lowerStr "api_key" = "api_key" := by decide
  have h2 : lowerStr "password" = "password" := by decide
  have h3 : lowerStr "token" = "token" := by decide
  have h4 : lowerStr "secret" = "secret" := by decide
  have h5 : lowerStr "key" = "key" := by decide
  have h6 : lowerStr "credit_card" = "credit_card" := by decide
  have h7 : lowerStr "ssn" = "ssn" := by decide
  have h8 : lowerStr "social_security" = "social_security" := by decide
  have h9 : lowerStr "account_number" = "account_number" := by decide
  simp [spec_sensitive, isSensitiveKey, sensitive_fields,
    h1, h2, h3, h4, h5, h6, h7, h8, h9]

/-- C8: the redactor transforms every entry of a mapping independently,
exactly as specified: string values under keys that case-insensitively
contain a vocabulary term are masked (length at most four: fully
starred; longer: first two and last two characters kept, middle
starred); nested mappings are sanitized recursively; every other value
passes through unchanged. -/
theorem sanitize_matches_spec (entries : List (String × Json)) :
    sanitize_sensitive_data entries = entries.map fun kv =>
      match kv with
      | (k, .jobj inner) => (k, .jobj (sanitize_dict inner))
      | (k, .jstr s) =>
        if spec_sensitive k then (k, .jstr (spec_mask s)) else (k, .jstr s)
      | (k, v) => (k, v) := by
  unfold sanitize_sensitive_data
  induction entries using sanitize_dict.induct with
  | case1 => simp [sanitize_dict]
  | case2 key inner rest ih1 ih2 =>
    simp [sanitize_dict, ih1, ih2]
  | case3 key s rest ih =>
    simp [sanitize_dict, ih, spec_sensitive_eq_isSensitiveKey, spec_mask_eq_mask_value]
  | case4 key v rest h1 h2 ih =>
    cases v <;> simp_all [sanitize_dict]

/-- Whether a JSON value is a string. -/
def jsonIsStr : Json → Bool
  | .jstr _ => true
  | _ => false

/-- Whether a JSON value is an object (a mapping). -/
def jsonIsObj : Json → Bool
  | .jobj _ => true
  | _ => false

/-- C10: the redactor does not descend into list values: every entry
whose value is neither a mapping nor a string — in particular every
list, whatever it contains — appears verbatim and in place in the
output. -/
theorem sanitize_no_list_descent (entries : List (String × Json)) :
    ∀ (i : Nat) (k : String) (v : Json), entries[i]? = some (k, v) →
      jsonIsStr v = false → jsonIsObj v = false →
      (sanitize_dict entries)[i]? = some (k, v) := by
  induction entries using sanitize_dict.induct with
  | case1 =>
    intro i k v h _ _
    simp at h
  | case2 key inner rest ih1 ih2 =>
    intro i k v h hs ho
    cases i with
    | zero =>
      simp at h
      simp [← h.2, jsonIsObj] at ho
    | succ n =>
      simp only [List.getElem?_cons_succ] at h
      simpa [sanitize_dict] using ih2 n k v h hs ho
  | case3 key s rest ih =>
    intro i k v h hs ho
    cases i with
    | zero =>
      simp at h
      simp [← h.2, jsonIsStr] at hs
    | succ n =>
      simp only [List.getElem?_cons_succ] at h
      simpa [sanitize_dict] using ih n k v h hs ho
  | case4 key v0 rest h1 h2 ih =>
    intro i k v h hs ho
    cases i with
    | zero =>
      simp at h
      cases v0 <;> simp_all [sanitize_dict]
    | succ n =>
      simp only [List.getElem?_cons_succ] at h
      simpa [sanitize_dict] using ih n k v h hs ho

/-- Witness for `sanitize_no_list_descent`: a mapping nested inside a
list keeps its sensitive string value (`"hunter2"` under key
`"password"`) verbatim. -/
theorem sanitize_no_list_descent_witness :
    (sanitize_dict [("creds", .jarr [.jobj [("password", .jstr "hunter2")]])])[0]? =
      some ("creds", .jarr [.jobj [("password", .jstr "hunter2")]]) :=
  sanitize_no_list_descent _ 0 _ _ rfl rfl rfl

theorem sanitizeEntriesH_extends (fuel : Nat)
    (hdict : ∀ st a, ∃ ext, (sanitizeDictH fuel st a).1 = st ++ ext) :
    ∀ (d : HDict) (st : Store), ∃ ext, (sanitizeEntriesH fuel st d).1 = st ++ ext := by
  intro d
  induction d with
  | nil =>
    intro st
    exact ⟨[], by simp [sanitizeEntriesH]⟩
  | cons e rest ih =>
    intro st
    obtain ⟨key, v⟩ := e
    cases v with
    | href b =>
      obtain ⟨ext1, h1⟩ := hdict st b
      rcases hd : sanitizeDictH fuel st b with ⟨st1, r⟩
      rw [hd] at h1
      simp only at h1
      subst h1
      cases r with
      | none => exact ⟨ext1, by simp [sanitizeEntriesH, hd]⟩
      | some rr =>
        obtain ⟨ext2, h2⟩ := ih (st ++ ext1)
        rcases he : sanitizeEntriesH fuel (st ++ ext1) rest with ⟨st2, r2⟩
        rw [he] at h2
        simp only at h2
        subst h2
        cases r2 with
        | none => exact ⟨ext1 ++ ext2, by simp [sanitizeEntriesH, hd, he]⟩
        | some es => exact ⟨ext1 ++ ext2, by simp [sanitizeEntriesH, hd, he]⟩
    | hstr s =>
      obtain ⟨ext2, h2⟩ := ih st
      rcases he : sanitizeEntriesH fuel st rest with ⟨st2, r2⟩
      rw [he] at h2
      simp only at h2
      subst h2
      cases r2 <;> exact ⟨ext2, by simp [sanitizeEntriesH, he]⟩
    | hint n =>
      obtain ⟨ext2, h2⟩ := ih st
      rcases he : sanitizeEntriesH fuel st rest with ⟨st2, r2⟩
      rw [he] at h2
      simp only at h2
      subst h2
      cases r2 <;> exact ⟨ext2, by simp [sanitizeEntriesH, he]⟩
    | hbool b =>
      obtain ⟨ext2, h2⟩ := ih st
      rcases he : sanitizeEntriesH fuel st rest with ⟨st2, r2⟩
      rw [he] at h2
      simp only at h2
      subst h2
      cases r2 <;> exact ⟨ext2, by simp [sanitizeEntriesH, he]⟩
    | hnull =>
      obtain ⟨ext2, h2⟩ := ih st
      rcases he : sanitizeEntriesH fuel st rest with ⟨st2, r2⟩
      rw [he] at h2
      simp only at h2
      subst h2
      cases r2 <;> exact ⟨ext2, by simp [sanitizeEntriesH, he]⟩
    | hlist xs =>
      obtain ⟨ext2, h2⟩ := ih st
      rcases he : sanitizeEntriesH fuel st rest with ⟨st2, r2⟩
      rw [he] at h2
      simp only at h2
      subst h2
      cases r2 <;> exact ⟨ext2, by simp [sanitizeEntriesH, he]⟩

theorem sanitizeDictH_extends :
    ∀ (fuel : Nat) (st : Store) (a : Nat),
      ∃ ext, (sanitizeDictH fuel st a).1 = st ++ ext := by
  intro fuel
  induction fuel with
  | zero =>
    intro st a
    exact ⟨[], by simp [sanitizeDictH]⟩
  | succ f ih =>
    intro st a
    obtain ⟨ext, hext⟩ := sanitizeEntriesH_extends f ih (st.getD a []) st
    rcases he : sanitizeEntriesH f st (st.getD a []) with ⟨st1, r⟩
    rw [he] at hext
    simp only at hext
    subst hext
    cases r with
    | none => exact ⟨ext, by simp [sanitizeDictH, ← List.getD_eq_getElem?_getD, he]⟩
    | some d => exact ⟨ext ++ [d], by simp [sanitizeDictH, ← List.getD_eq_getElem?_getD, he]⟩

/-- C9: the heap-level redactor never mutates its argument: every
dictionary present in the store before the call is unchanged after it
(the result store extends the input store), and the returned dictionary
is a freshly allocated address, never one of the input addresses. -/
theorem sanitize_heap_no_mutation (fuel : Nat) (st : Store) (a i : Nat) (r : Nat)
    (hi : i < st.length) :
    ((sanitizeDictH fuel st a).1).getD i [] = st.getD i [] ∧
    ((sanitizeDictH fuel st a).2 = some r → st.length ≤ r) := by
  obtain ⟨ext, hext⟩ := sanitizeDictH_extends fuel st a
  constructor
  · rw [hext, List.getD_eq_getElem?_getD, List.getD_eq_getElem?_getD,
      List.getElem?_append_left hi]
  · intro hr
    cases fuel with
    | zero => simp [sanitizeDictH] at hr
    | succ f =>
      obtain ⟨ext2, hext2⟩ := sanitizeEntriesH_extends f
        (fun st2 a2 => sanitizeDictH_extends f st2 a2) (st.getD a []) st
      rcases he : sanitizeEntriesH f st (st.getD a []) with ⟨st1, r2⟩
      rw [he] at hext2
      simp only at hext2
      subst hext2
      cases r2 with
      | none => simp [sanitizeDictH, ← List.getD_eq_getElem?_getD, he] at hr
      | some d =>
        simp only [sanitizeDictH, ← List.getD_eq_getElem?_getD, he] at hr
        have hrr : r = (st ++ ext2).length := by
          simpa using hr.symm
        rw [hrr]
        simp

/-- Witness for `sanitize_heap_no_mutation` at a concrete store holding
one dictionary with a sensitive entry. -/
theorem sanitize_heap_no_mutation_witness :
    ((sanitizeDictH 2 [[("password", .hstr "hunter2")]] 0).1).getD 0 [] =
      [[("password", HVal.hstr "hunter2")]].getD 0 [] ∧
    ((sanitizeDictH 2 [[("password", .hstr "hunter2")]] 0).2 = some 1 →
      [[("password", HVal.hstr "hunter2")]].length ≤ 1) :=
  sanitize_heap_no_mutation 2 [[("password", .hstr "hunter2")]] 0 0 1 (by decide)

theorem canonEntries_eq_map (es : List (String × Json)) :
    canonEntries es = es.map fun kv => (kv.1, canon kv.2) := by
  induction es with
  | nil => simp [canonEntries]
  | cons e rest ih =>
    obtain ⟨k, v⟩ := e
    simp [canonEntries, ih]

instance : IsTotal (String × Json) (fun a b => a.1 ≤ b.1) :=
  ⟨fun a b => le_total a.1 b.1⟩

instance : IsTrans (String × Json) (fun a b => a.1 ≤ b.1) :=
  ⟨fun _ _ _ h1 h2 => le_trans h1 h2⟩

instance : IsAntisymm (String × Json) (fun a b => a.1 < b.1) :=
  ⟨fun _ _ h1 h2 => absurd (lt_trans h1 h2) (lt_irrefl _)⟩

/-- Sorting by key sends key-permuted entry lists with distinct keys to
the same list. -/
theorem sortEntries_eq_of_perm (es fs : List (String × Json))
    (hperm : es.Perm fs) (hnd : (es.map Prod.fst).Nodup) :
    sortEntries es = sortEntries fs := by
  have hps : (sortEntries es).Perm (sortEntries fs) :=
    ((List.perm_insertionSort _ es).trans hperm).trans
      (List.perm_insertionSort _ fs).symm
  have hnd1 : ((sortEntries es).map Prod.fst).Nodup :=
    hnd.perm ((List.perm_insertionSort _ es).symm.map _)
  have hnd2 : ((sortEntries fs).map Prod.fst).Nodup :=
    hnd1.perm (hps.map _)
  have hs1 : List.Sorted (fun a b : String × Json => a.1 ≤ b.1) (sortEntries es) :=
    List.sorted_insertionSort _ es
  have hs2 : List.Sorted (fun a b : String × Json => a.1 ≤ b.1) (sortEntries fs) :=
    List.sorted_insertionSort _ fs
  have hlt1 : List.Sorted (fun a b : String × Json => a.1 < b.1) (sortEntries es) := by
    have := hs1.and (List.pairwise_map.mp hnd1)
    exact this.imp fun h => lt_of_le_of_ne h.1 h.2
  have hlt2 : List.Sorted (fun a b : String × Json => a.1 < b.1) (sortEntries fs) := by
    have := hs2.and (List.pairwise_map.mp hnd2)
    exact this.imp fun h => lt_of_le_of_ne h.1 h.2
  exact List.eq_of_perm_of_sorted hps hlt1 hlt2

/-- Canonicalization is invariant under permuting the entries of a
mapping with distinct keys. -/
theorem canon_jobj_perm (es fs : List (String × Json))
    (hperm : es.Perm fs) (hnd : (es.map Prod.fst).Nodup) :
    canon (.jobj es) = canon (.jobj fs) := by
  simp only [canon]
  congr 1
  apply sortEntries_eq_of_perm
  · rw [canonEntries_eq_map, canonEntries_eq_map]
    exact hperm.map _
  · rw [canonEntries_eq_map]
    have : (es.map fun kv => (kv.1, canon kv.2)).map Prod.fst = es.map Prod.fst := by
      simp [List.map_map, Function.comp]
    rw [this]
    exact hnd

/-- C7: the integrity digest is computed over the key-sorted canonical
serialization: two payload mappings with the same entries inserted in
different orders (distinct keys, as in a Python dict) produce the same
HMAC signature, and `verify_data_integrity` returns the same result for
either payload against any supplied signature. -/
theorem signature_order_independent (env : OsEnv) (secret sig : String)
    (es fs : List (String × Json))
    (hsk : env.dataIntegrityKey = some secret) (hne : secret ≠ "")
    (hperm : es.Perm fs) (hnd : (es.map Prod.fst).Nodup) :
    calculated_signature secret (.jobj es) = calculated_signature secret (.jobj fs) ∧
    verify_data_integrity env (.jobj es) sig =
      verify_data_integrity env (.jobj fs) sig := by
  have hc := canon_jobj_perm es fs hperm hnd
  constructor
  · simp [calculated_signature, hc]
  · simp [verify_data_integrity, hsk, envStrMissing, hne, calculated_signature, hc]

/-- Witness for `signature_order_independent`: the two-entry mapping
inserted in either order signs identically and verifies identically. -/
theorem signature_order_independent_witness :
    calculated_signature "k" (.jobj [("b", .jint 1), ("a", .jint 2)]) =
      calculated_signature "k" (.jobj [("a", .jint 2), ("b", .jint 1)]) ∧
    verify_data_integrity ⟨none, some "k"⟩ (.jobj [("b", .jint 1), ("a", .jint 2)]) "s" =
      verify_data_integrity ⟨none, some "k"⟩ (.jobj [("a", .jint 2), ("b", .jint 1)]) "s" :=
  signature_order_independent ⟨none, some "k"⟩ "k" "s"
    [("b", .jint 1), ("a", .jint 2)] [("a", .jint 2), ("b", .jint 1)]
    rfl (by decide) (List.Perm.swap ("a", Json.jint 2) ("b", Json.jint 1) [])
    (by decide)

/-- The branch a load call reported, `none` on failure. -/
def loadResultBranch : Except PyExc (LoadBranch × Json) → Option LoadBranch
  | .ok (b, _) => some b
  | .error _ => none

/-- C1 counterexample: with `cfg.salt` present (one of the two
encrypted-vault files) but `cfg.enc` absent, `load_config` still reads
and returns the legacy plaintext file — refuting the claim that the
plaintext branch is taken only when both encrypted-vault files are
absent. -/
theorem load_plaintext_despite_salt :
    loadResultBranch (load_config ⟨none, none⟩
        [("cfg.salt", .bin [0]), ("cfg", .jsonText [.lbrace, .rbrace])]
        (some "cfg")) = some .plaintext ∧
    fsExists [("cfg.salt", FileData.bin [0]),
        ("cfg", FileData.jsonText [Tok.lbrace, Tok.rbrace])] "cfg.salt" = true := by
  exact ⟨rfl, rfl⟩

/-- C1 (amended): `load_config` reads the legacy plaintext file exactly
when `{path}.enc` is absent (and the plaintext file is present and
parseable); the presence of `{path}.salt` alone does not prevent the
plaintext branch. -/
theorem load_config_plaintext_iff (env : OsEnv) (st : FsState) (p : String) (j : Json) :
    load_config env st (some p) = .ok (.plaintext, j) ↔
      (fsExists st (p ++ ".enc") = false ∧
       ∃ ts, fsLookup st p = some (.jsonText ts) ∧ jsonLoads ts = some j) := by
  constructor
  · intro h
    cases henc : fsExists st (p ++ ".enc") with
    | true =>
      exfalso
      unfold load_config loadConfigBody at h
      simp only [Option.getD_some, henc, if_true, generate_key] at h
      cases hmiss : envStrMissing env.configPassword with
      | true => rw [hmiss] at h; simp at h
      | false =>
        rw [hmiss] at h
        simp only [Bool.false_eq_true, if_false] at h
        cases hsalt : fsExists st (p ++ ".salt") with
        | false => rw [hsalt] at h; simp at h
        | true =>
          rw [hsalt] at h
          simp only [if_true] at h
          rcases hlk : fsLookup st (p ++ ".enc") with _ | fd
          · rw [hlk] at h; simp [Except.map] at h
          · rw [hlk] at h
            cases fd with
            | bin bs => simp [Except.map] at h
            | jsonText ts => simp [Except.map] at h
            | ftok t =>
              simp only [] at h
              rcases hdec : decrypt_config t
                  (generateKeyCore (env.configPassword.getD "")
                    (some (match fsLookup st (p ++ ".salt") with
                           | some (FileData.bin bs) => bs
                           | _ => [])) []).1 with e | v
              all_goals rw [hdec] at h
              · simp [Except.map] at h
              · simp [Except.map] at h
    | false =>
      refine ⟨rfl, ?_⟩
      cases hlook : fsLookup st p with
      | none =>
        unfold load_config loadConfigBody at h
        simp [Option.getD_some, henc, hlook] at h
      | some fd =>
        cases fd with
        | jsonText ts =>
          cases hj : jsonLoads ts with
          | none =>
            unfold load_config loadConfigBody at h
            simp [Option.getD_some, henc, hlook, hj] at h
          | some j0 =>
            unfold load_config loadConfigBody at h
            simp [Option.getD_some, henc, hlook, hj] at h
            exact ⟨ts, rfl, by rw [hj, h]⟩
        | bin bs =>
          unfold load_config loadConfigBody at h
          simp [Option.getD_some, henc, hlook] at h
        | ftok t =>
          unfold load_config loadConfigBody at h
          simp [Option.getD_some, henc, hlook] at h
  · rintro ⟨henc, ts, hlook, hload⟩
    unfold load_config loadConfigBody
    simp [Option.getD_some, henc, hlook, hload]

/-- Witness for `load_config_plaintext_iff`: a state with only a
plaintext file loads it through the plaintext branch. -/
theorem load_config_plaintext_iff_witness :
    load_config ⟨none, none⟩ [("cfg", .jsonText [.lbrace, .rbrace])] (some "cfg") =
      .ok (.plaintext, .jobj []) :=
  (load_config_plaintext_iff ⟨none, none⟩ [("cfg", .jsonText [.lbrace, .rbrace])]
      "cfg" (.jobj [])).mpr ⟨rfl, [.lbrace, .rbrace], rfl, rfl⟩

/-- C2 counterexample: the three failure modes of `load_config` —
missing out-of-band password with a vault present, missing salt file
with a token present, and no vault plus no legacy file — all surface as
the same exception type `ConfigError`, refuting the claim that they are
distinct typed errors distinguishable by type. -/
theorem load_config_failures_same_type :
    errType (load_config ⟨none, none⟩
        [("cfg.enc", .ftok ⟨[], []⟩), ("cfg.salt", .bin [])] (some "cfg")) =
      some "ConfigError" ∧
    errType (load_config ⟨some "pw", none⟩
        [("cfg.enc", .ftok ⟨[], []⟩)] (some "cfg")) = some "ConfigError" ∧
    errType (load_config ⟨some "pw", none⟩ [] (some "cfg")) = some "ConfigError" := by
  exact ⟨rfl, rfl, rfl⟩

/-- C2 (amended): the three failure modes of `load_config` are all
raised as the single exception type `ConfigError`; they are
distinguishable only by their message strings — which are pairwise
distinct — not by type. -/
theorem load_config_error_modes (env : OsEnv) (st : FsState) (p : String) :
    (fsExists st (p ++ ".enc") = true → envStrMissing env.configPassword = true →
      load_config env st (some p) = .error (.configError
        "Failed to load configuration: CONFIG_PASSWORD environment variable not set")) ∧
    (fsExists st (p ++ ".enc") = true → envStrMissing env.configPassword = false →
      fsExists st (p ++ ".salt") = false →
      load_config env st (some p) = .error (.configError
        "Failed to load configuration: Salt file not found")) ∧
    (fsExists st (p ++ ".enc") = false → fsLookup st p = none →
      load_config env st (some p) = .error (.configError
        ("Failed to load configuration: " ++
          ("[Errno 2] No such file or directory: " ++ p)))) ∧
    ("Failed to load configuration: CONFIG_PASSWORD environment variable not set" ≠
      "Failed to load configuration: Salt file not found") ∧
    (∀ q : String,
      "Failed to load configuration: " ++
          ("[Errno 2] No such file or directory: " ++ q) ≠
        "Failed to load configuration: CONFIG_PASSWORD environment variable not set" ∧
      "Failed to load configuration: " ++
          ("[Errno 2] No such file or directory: " ++ q) ≠
        "Failed to load configuration: Salt file not found") := by
  refine ⟨?_, ?_, ?_, by decide, ?_⟩
  · intro henc hmiss
    unfold load_config loadConfigBody
    simp [Option.getD_some, henc, hmiss, excMessage]
  · intro henc hmiss hsalt
    unfold load_config loadConfigBody
    simp [Option.getD_some, henc, hmiss, hsalt, excMessage]
  · intro henc hlook
    unfold load_config loadConfigBody
    simp [Option.getD_some, henc, hlook, excMessage]
  · intro q
    constructor
    · intro h
      have h3 := congrArg (fun s : String => s.toList[60]?) h
      simp only at h3
      rw [show ("Failed to load configuration: " ++
          ("[Errno 2] No such file or directory: " ++ q)).toList =
          ("Failed to load configuration: [Errno 2] No such file or directory: "
            : String).toList ++ q.toList by simp] at h3
      rw [List.getElem?_append_left (by decide)] at h3
      exact absurd h3 (by decide)
    · intro h
      have h3 := congrArg (fun s : String => s.toList[30]?) h
      simp only at h3
      rw [show ("Failed to load configuration: " ++
          ("[Errno 2] No such file or directory: " ++ q)).toList =
          ("Failed to load configuration: [Errno 2] No such file or directory: "
            : String).toList ++ q.toList by simp] at h3
      rw [List.getElem?_append_left (by decide)] at h3
      exact absurd h3 (by decide)

/-- Witness for `load_config_error_modes`: the missing-password mode at
a concrete state yields the wrapped ConfigError. -/
theorem load_config_error_modes_witness :
    load_config ⟨none, none⟩
        [("cfg.enc", .ftok ⟨[], []⟩), ("cfg.salt", .bin [])] (some "cfg") =
      .error (.configError
        "Failed to load configuration: CONFIG_PASSWORD environment variable not set") :=
  (load_config_error_modes ⟨none, none⟩
      [("cfg.enc", .ftok ⟨[], []⟩), ("cfg.salt", .bin [])] "cfg").1 rfl rfl

theorem path_ne_salt (p : String) : p ≠ p ++ ".salt" := by
  intro h
  have h2 := congrArg String.length h
  have h5 : (".salt" : String).length = 5 := by decide
  rw [String.length_append, h5] at h2
  omega

theorem path_ne_enc (p : String) : p ≠ p ++ ".enc" := by
  intro h
  have h2 := congrArg String.length h
  have h4 : (".enc" : String).length = 4 := by decide
  rw [String.length_append, h4] at h2
  omega

theorem salt_ne_enc (p : String) : p ++ ".salt" ≠ p ++ ".enc" := by
  intro h
  have h2 := congrArg String.length h
  have h5 : (".salt" : String).length = 5 := by decide
  have h4 : (".enc" : String).length = 4 := by decide
  rw [String.length_append, String.length_append, h5, h4] at h2
  omega

theorem fsLookup_cons_self (st : FsState) (p : String) (c : FileData) :
    fsLookup ((p, c) :: st) p = some c := by
  simp [fsLookup]

theorem fsLookup_cons_other (st : FsState) (p q : String) (c : FileData)
    (h : p ≠ q) : fsLookup ((p, c) :: st) q = fsLookup st q := by
  simp [fsLookup, h]

theorem fsLookup_filter_other (st : FsState) (p q : String) (h : p ≠ q) :
    fsLookup (st.filter fun e => !(e.1 == p)) q = fsLookup st q := by
  induction st with
  | nil => simp [fsLookup]
  | cons e rest ih =>
    obtain ⟨k, c⟩ := e
    by_cases hk : k = p
    · subst hk
      simp [List.filter_cons, fsLookup, h, ih]
    · by_cases hq : k = q
      · subst hq
        simp [List.filter_cons, fsLookup, hk]
      · simp [List.filter_cons, fsLookup, hk, hq, ih]

theorem fsLookup_filter_self (st : FsState) (p : String) :
    fsLookup (st.filter fun e => !(e.1 == p)) p = none := by
  induction st with
  | nil => simp [fsLookup]
  | cons e rest ih =>
    obtain ⟨k, c⟩ := e
    by_cases hk : k = p
    · subst hk
      simp [List.filter_cons, ih]
    · simp [List.filter_cons, fsLookup, hk, ih]

theorem fsExists_false_lookup (st : FsState) (p : String)
    (h : fsExists st p = false) : fsLookup st p = none := by
  cases hl : fsLookup st p with
  | none => rfl
  | some c => rw [fsExists, hl] at h; simp at h

/-- The key every encrypted save derives, and the token it writes. -/
def saveKey (pw : String) (entropy : Bytes) : FernetKey :=
  (generateKeyCore pw none entropy).1

/-- The token an encrypted save writes. -/
def saveToken (payload : Json) (pw : String) (entropy : Bytes) : FernetToken :=
  fernetEncrypt (saveKey pw entropy) (dumpToks payload)

theorem save_config_ops_eq (config : Json) (cp : Option String) (pw : String)
    (entropy : Bytes) (st : FsState) (hpw : pw ≠ "") :
    save_config_ops config cp (some pw) entropy st =
      [.writeFile ((cp.getD "config/config.json") ++ ".salt") (.bin entropy),
       .writeFile ((cp.getD "config/config.json") ++ ".enc")
         (.ftok (saveToken config pw entropy))] ++
      (if fsExists st (cp.getD "config/config.json") then
        [.removeFile (cp.getD "config/config.json")] else []) := by
  unfold save_config_ops saveToken saveKey
  simp [envStrMissing, hpw, encrypt_config, generateKeyCore, validFernetKey,
    urlsafeB64Encode_length, pbkdf2Sha256_length]

theorem secure_save_ops_eq (data : Json) (fp pw : String) (entropy : Bytes) :
    secure_save_ops data fp pw entropy =
      [.writeFile (fp ++ ".salt") (.bin entropy),
       .writeFile fp (.ftok (saveToken data pw entropy))] := by
  unfold secure_save_ops saveToken saveKey
  simp [encrypt_data, generateKeyCore, validFernetKey,
    urlsafeB64Encode_length, pbkdf2Sha256_length]

/-- C5: every encrypted save writes the salt file strictly before the
token file — in `save_config` (`{path}.salt` before `{path}.enc`) and in
`secure_save` (`{filepath}.salt` before `{filepath}`) — and for every
prefix of the `save_config` trace (a save interrupted at any point), the
on-disk state holds the new token only if it already holds the new salt,
so a token can never be paired with a salt from a previous, different
password. -/
theorem save_salt_before_token (config data : Json) (cp : Option String)
    (fp pw : String) (entropy : Bytes) (st : FsState) (hpw : pw ≠ "") :
    (save_config_ops config cp (some pw) entropy st)[0]? =
      some (.writeFile ((cp.getD "config/config.json") ++ ".salt") (.bin entropy)) ∧
    (save_config_ops config cp (some pw) entropy st)[1]? =
      some (.writeFile ((cp.getD "config/config.json") ++ ".enc")
        (.ftok (saveToken config pw entropy))) ∧
    (∀ n, fsLookup st ((cp.getD "config/config.json") ++ ".enc") ≠
        some (.ftok (saveToken config pw entropy)) →
      fsLookup (applyOps st ((save_config_ops config cp (some pw) entropy st).take n))
          ((cp.getD "config/config.json") ++ ".enc") =
        some (.ftok (saveToken config pw entropy)) →
      fsLookup (applyOps st ((save_config_ops config cp (some pw) entropy st).take n))
          ((cp.getD "config/config.json") ++ ".salt") = some (.bin entropy)) ∧
    (secure_save_ops data fp pw entropy)[0]? =
      some (.writeFile (fp ++ ".salt") (.bin entropy)) ∧
    (secure_save_ops data fp pw entropy)[1]? =
      some (.writeFile fp (.ftok (saveToken data pw entropy))) := by
  have hops := save_config_ops_eq config cp pw entropy st hpw
  have hsec := secure_save_ops_eq data fp pw entropy
  have hse : ((cp.getD "config/config.json") ++ ".salt") ≠
      ((cp.getD "config/config.json") ++ ".enc") := salt_ne_enc _
  refine ⟨by rw [hops]; simp, by rw [hops]; simp, ?_, by rw [hsec]; simp,
    by rw [hsec]; simp⟩
  intro n hpre hnow
  rw [hops] at hnow ⊢
  match n with
  | 0 =>
    simp [applyOps] at hnow
    exact absurd hnow hpre
  | 1 =>
    simp only [List.cons_append, List.take, applyOps, List.foldl, applyOp] at hnow
    rw [fsLookup_cons_other _ _ _ _ hse] at hnow
    exact absurd hnow hpre
  | Nat.succ (Nat.succ m) =>
    by_cases hex : fsExists st (cp.getD "config/config.json")
    · simp only [hex, if_true, List.cons_append, List.nil_append] at hnow ⊢
      match m with
      | 0 =>
        simp only [List.take, applyOps, List.foldl, applyOp]
        rw [fsLookup_cons_other _ _ _ _ (Ne.symm hse), fsLookup_cons_self]
      | Nat.succ k =>
        simp only [List.take, List.take_nil, applyOps, List.foldl, applyOp]
        rw [fsLookup_filter_other _ _ _ (path_ne_salt _),
          fsLookup_cons_other _ _ _ _ (Ne.symm hse), fsLookup_cons_self]
    · simp only [hex, Bool.false_eq_true, if_false, List.cons_append,
        List.nil_append] at hnow ⊢
      simp only [List.take, List.take_nil, applyOps, List.foldl, applyOp]
      rw [fsLookup_cons_other _ _ _ _ (Ne.symm hse), fsLookup_cons_self]

/-- Witness for `save_salt_before_token` at concrete inputs. -/
theorem save_salt_before_token_witness :
    (save_config_ops (.jobj []) (some "cfg") (some "pw") (List.replicate 16 0) [])[0]? =
      some (.writeFile ("cfg" ++ ".salt") (.bin (List.replicate 16 0))) ∧
    (save_config_ops (.jobj []) (some "cfg") (some "pw") (List.replicate 16 0) [])[1]? =
      some (.writeFile ("cfg" ++ ".enc")
        (.ftok (saveToken (.jobj []) "pw" (List.replicate 16 0)))) ∧
    (∀ n, fsLookup [] ("cfg" ++ ".enc") ≠
        some (.ftok (saveToken (.jobj []) "pw" (List.replicate 16 0))) →
      fsLookup (applyOps []
          ((save_config_ops (.jobj []) (some "cfg") (some "pw")
            (List.replicate 16 0) []).take n)) ("cfg" ++ ".enc") =
        some (.ftok (saveToken (.jobj []) "pw" (List.replicate 16 0))) →
      fsLookup (applyOps []
          ((save_config_ops (.jobj []) (some "cfg") (some "pw")
            (List.replicate 16 0) []).take n)) ("cfg" ++ ".salt") =
        some (.bin (List.replicate 16 0))) ∧
    (secure_save_ops (.jobj []) "data" "pw" (List.replicate 16 0))[0]? =
      some (.writeFile ("data" ++ ".salt") (.bin (List.replicate 16 0))) ∧
    (secure_save_ops (.jobj []) "data" "pw" (List.replicate 16 0))[1]? =
      some (.writeFile "data"
        (.ftok (saveToken (.jobj []) "pw" (List.replicate 16 0)))) :=
  save_salt_before_token (.jobj []) (.jobj []) (some "cfg") "data" "pw"
    (List.replicate 16 0) [] (by decide)

/-- C6: after an encrypted `save_config`, no plaintext copy remains at
`{path}` (the legacy file is gone), the salt and token files hold the
new salt and token, and the removal of the legacy file — whenever the
trace contains one — comes after every write. -/
theorem save_removes_plaintext (config : Json) (cp : Option String)
    (pw : String) (entropy : Bytes) (st : FsState) (hpw : pw ≠ "") :
    fsLookup (applyOps st (save_config_ops config cp (some pw) entropy st))
      (cp.getD "config/config.json") = none ∧
    fsLookup (applyOps st (save_config_ops config cp (some pw) entropy st))
      ((cp.getD "config/config.json") ++ ".salt") = some (.bin entropy) ∧
    fsLookup (applyOps st (save_config_ops config cp (some pw) entropy st))
      ((cp.getD "config/config.json") ++ ".enc") =
        some (.ftok (saveToken config pw entropy)) ∧
    (∀ (i : Nat) (q : String), (save_config_ops config cp (some pw) entropy st)[i]? =
        some (FsOp.removeFile q) →
      ∀ (j2 : Nat) (q2 : String) (c : FileData),
        (save_config_ops config cp (some pw) entropy st)[j2]? =
        some (FsOp.writeFile q2 c) → j2 < i) := by
  have hops := save_config_ops_eq config cp pw entropy st hpw
  have hse : ((cp.getD "config/config.json") ++ ".salt") ≠
      ((cp.getD "config/config.json") ++ ".enc") := salt_ne_enc _
  rw [hops]
  by_cases hex : fsExists st (cp.getD "config/config.json")
  · simp only [hex, if_true, List.cons_append, List.nil_append]
    refine ⟨?_, ?_, ?_, ?_⟩
    · simp only [applyOps, List.foldl, applyOp]
      exact fsLookup_filter_self _ _
    · simp only [applyOps, List.foldl, applyOp]
      rw [fsLookup_filter_other _ _ _ (path_ne_salt _),
        fsLookup_cons_other _ _ _ _ (Ne.symm hse), fsLookup_cons_self]
    · simp only [applyOps, List.foldl, applyOp]
      rw [fsLookup_filter_other _ _ _ (path_ne_enc _), fsLookup_cons_self]
    · intro i q hi j2 q2 c hj
      have hi2 : i = 2 := by
        rcases i with _ | _ | _ | i4 <;> simp_all
      subst hi2
      rcases j2 with _ | _ | _ | j4 <;> simp_all
  · simp only [hex, Bool.false_eq_true, if_false, List.cons_append, List.nil_append]
    refine ⟨?_, ?_, ?_, ?_⟩
    · simp only [applyOps, List.foldl, applyOp]
      rw [fsLookup_cons_other _ _ _ _ (Ne.symm (path_ne_enc _)),
        fsLookup_cons_other _ _ _ _ (Ne.symm (path_ne_salt _))]
      exact fsExists_false_lookup st _ (by simpa using hex)
    · simp only [applyOps, List.foldl, applyOp]
      rw [fsLookup_cons_other _ _ _ _ (Ne.symm hse), fsLookup_cons_self]
    · simp only [applyOps, List.foldl, applyOp]
      rw [fsLookup_cons_self]
    · intro i q hi j2 q2 c hj
      exfalso
      rcases i with _ | _ | i3 <;> simp_all


/-- Witness for `save_removes_plaintext` at a state holding a legacy
plaintext file. -/
theorem save_removes_plaintext_witness :
    fsLookup (applyOps [("cfg", .jsonText [.lbrace, .rbrace])]
        (save_config_ops (.jobj []) (some "cfg") (some "pw") (List.replicate 16 0)
          [("cfg", .jsonText [.lbrace, .rbrace])]))
      ((some "cfg").getD "config/config.json") = none ∧
    fsLookup (applyOps [("cfg", .jsonText [.lbrace, .rbrace])]
        (save_config_ops (.jobj []) (some "cfg") (some "pw") (List.replicate 16 0)
          [("cfg", .jsonText [.lbrace, .rbrace])]))
      (((some "cfg").getD "config/config.json") ++ ".salt") =
        some (.bin (List.replicate 16 0)) ∧
    fsLookup (applyOps [("cfg", .jsonText [.lbrace, .rbrace])]
        (save_config_ops (.jobj []) (some "cfg") (some "pw") (List.replicate 16 0)
          [("cfg", .jsonText [.lbrace, .rbrace])]))
      (((some "cfg").getD "config/config.json") ++ ".enc") =
        some (.ftok (saveToken (.jobj []) "pw" (List.replicate 16 0))) ∧
    (∀ (i : Nat) (q : String), (save_config_ops (.jobj []) (some "cfg") (some "pw")
        (List.replicate 16 0) [("cfg", .jsonText [.lbrace, .rbrace])])[i]? =
        some (FsOp.removeFile q) →
      ∀ (j2 : Nat) (q2 : String) (c : FileData),
        (save_config_ops (.jobj []) (some "cfg") (some "pw")
        (List.replicate 16 0) [("cfg", .jsonText [.lbrace, .rbrace])])[j2]? =
        some (FsOp.writeFile q2 c) → j2 < i) :=
  save_removes_plaintext (.jobj []) (some "cfg") "pw" (List.replicate 16 0)
    [("cfg", .jsonText [.lbrace, .rbrace])] (by decide)

end Troyonix
